import Mathlib

/-!
Verification of the price-aggregation and pagination/estimation layer of the
donut-tracker dashboard (src/public/assets/js/app.js), shallowly embedded in
Lean 4.  Times are epoch milliseconds (`ℤ`), prices are rationals (`ℚ`),
machine integers that the code keeps small and non-negative are `ℕ`.
Fallible network probes are `Option`-valued functions.
-/

namespace Donut

/-! ### Local price history store (app.js lines 324-346) -/

structure PricePoint where
  time : ℤ
  price : ℚ
deriving DecidableEq

abbrev Store := String → List PricePoint

def histKey (itemId : String) : String := "price_history_" ++ itemId

def thirtyDaysAgo (now : ℤ) : ℤ := now - 30 * 24 * 60 * 60 * 1000

/-- `history.filter(p => p.time > thirtyDaysAgo)` (app.js line 335). -/
def prunePoints (now : ℤ) (l : List PricePoint) : List PricePoint :=
  l.filter (fun p => decide (thirtyDaysAgo now < p.time))

/-- `.slice(-100)` (app.js line 335): keep the last 100 entries. -/
def capPoints (l : List PricePoint) : List PricePoint :=
  l.drop (l.length - 100)

/-- `storePriceHistory(itemId, price)` (app.js lines 324-338): append the new
point at time `now`, prune points older than 30 days, keep the last 100. -/
def storePriceHistory (store : Store) (itemId : String) (price : ℚ) (now : ℤ) : Store :=
  Function.update store (histKey itemId)
    (capPoints (prunePoints now (store (histKey itemId) ++ [⟨now, price⟩])))

/-- `getPriceHistory(itemId)` (app.js lines 343-346): return the stored series
verbatim.  No filtering happens on the read path. -/
def getPriceHistory (store : Store) (itemId : String) : List PricePoint :=
  store (histKey itemId)

/-! ### Sparkline / trend estimator (app.js lines 351-410) -/

/-- JavaScript `Number.prototype.toFixed(1)` on an exact rational, following
the ECMA algorithm: take the sign apart, round the magnitude to the nearest
tenth (ties upward), and print with one decimal digit.  For a rational
`num/den` the rounded magnitude in tenths is `⌊(|num|*20 + den) / (2*den)⌋`. -/
def toFixed1 (q : ℚ) : String :=
  let n : ℕ := (q.num.natAbs * 20 + q.den) / (2 * q.den)
  (if q.num < 0 then "-" else "") ++ toString (n / 10) ++ "." ++ toString (n % 10)

structure PriceTrend where
  percentage : String
  direction : String
deriving DecidableEq

/-- `calculatePriceTrend(data)` (app.js lines 396-410). -/
def calculatePriceTrend (data : List PricePoint) : Option PriceTrend :=
  if data.length < 2 then none
  else
    let prices := data.map (fun d => d.price)
    let firstPrice := prices.headI
    let lastPrice := prices.getLastD 0
    if firstPrice = 0 then none
    else
      let change := (lastPrice - firstPrice) / firstPrice * 100
      some ⟨toFixed1 change,
        if 0 < change then "up" else if change < 0 then "down" else "neutral"⟩

inductive SparklineView where
| neutralGlyph : SparklineView
| chart : String → List (ℚ × ℚ) → SparklineView
deriving DecidableEq

/-- `generateSparkline(data, 60, 20)` (app.js lines 351-391), abstracting the
SVG markup to the trend class and the polyline coordinates. -/
def generateSparkline (data : List PricePoint) : SparklineView :=
  if data.length < 2 then SparklineView.neutralGlyph
  else
    let prices := data.map (fun d => d.price)
    let mn := prices.foldl min prices.headI
    let mx := prices.foldl max prices.headI
    let range := if mx - mn = 0 then 1 else mx - mn
    let pts := prices.enum.map (fun ip =>
      ((ip.1 : ℚ) / ((prices.length : ℚ) - 1) * 60, 20 - (ip.2 - mn) / range * 20))
    let trendClass :=
      if prices.headI < prices.getLastD 0 then "sparkline-up"
      else if prices.getLastD 0 < prices.headI then "sparkline-down"
      else "sparkline-neutral"
    SparklineView.chart trendClass pts

/-! ### Unbounded collection size estimator (app.js lines 3058-3139, and the
identical `loadAuctionCountAnimated` at lines 2654-2738).  A probe of page `p`
is modelled by `probe p : Option ℕ`: `none` is a network/parse error (the
rejected promise caught by `.catch`), `some c` is a well-formed response whose
`result` array has `c` items. -/

def itemsPerPage : ℕ := 44

def checkPages : List ℕ := [100, 500, 1000, 1500, 2000, 2500]

/-- `data?.result?.length || 0`, with `.catch(() => ({ page, count: 0 }))`. -/
def countOf (probe : ℕ → Option ℕ) (p : ℕ) : ℕ := (probe p).getD 0

/-- `data?.result?.length > 0`, with `.catch(() => ({ page, valid: false }))`. -/
def validOf (probe : ℕ → Option ℕ) (p : ℕ) : Bool :=
  match probe p with
  | none => false
  | some c => decide (0 < c)

/-- Replace every errored probe by a well-formed empty page. -/
def errZero (probe : ℕ → Option ℕ) : ℕ → Option ℕ :=
  fun p => some ((probe p).getD 0)

/-- The coarse scan (app.js lines 3081-3088): walk the candidate pages in
order; a valid page becomes `low`, the first invalid one becomes `high` and
the loop breaks. -/
def coarseLoop (valid : ℕ → Bool) : List ℕ → ℕ → ℕ → ℕ × ℕ
  | [], low, high => (low, high)
  | p :: rest, low, high => if valid p then coarseLoop valid rest p high else (low, p)

/-- `let low = 1; let high = 100;` then the scan over `checkPages`. -/
def coarseBounds (valid : ℕ → Bool) : ℕ × ℕ := coarseLoop valid checkPages 1 100

/-- One fuel-indexed unfolding of the binary-narrowing `while` loop
(app.js lines 3091-3105).  `valid k mid` is the outcome of the probe issued at
iteration `k`; the second component counts loop iterations.  `binaryGo_eq`
below proves that with fuel `high - low` this satisfies exactly the loop's
fixed-point equation, so the fuel is semantically invisible. -/
def binaryAux (valid : ℕ → ℕ → Bool) : ℕ → ℕ → ℕ → ℕ → (ℕ × ℕ) × ℕ
  | 0, _, low, high => ((low, high), 0)
  | fuel + 1, k, low, high =>
    if low + 50 < high then
      let r := if valid k ((low + high) / 2)
        then binaryAux valid fuel (k + 1) ((low + high) / 2) high
        else binaryAux valid fuel (k + 1) low ((low + high) / 2)
      (r.1, r.2 + 1)
    else ((low, high), 0)

/-- Final bounds of the `while (low + 50 < high)` loop. -/
def binaryGo (valid : ℕ → ℕ → Bool) (k low high : ℕ) : ℕ × ℕ :=
  (binaryAux valid (high - low) k low high).1

/-- Number of iterations of the `while (low + 50 < high)` loop. -/
def binSteps (valid : ℕ → ℕ → Bool) (k low high : ℕ) : ℕ :=
  (binaryAux valid (high - low) k low high).2

/-- Bounds after the coarse scan followed by the binary narrowing. -/
def boundsOf (probe : ℕ → Option ℕ) : ℕ × ℕ :=
  binaryGo (fun _ p => validOf probe p) 0 (coarseBounds (validOf probe)).1
    (coarseBounds (validOf probe)).2

/-- `for (let p = low; p <= Math.min(low + 60, high + 10); p += 10)`
(app.js lines 3108-3111). -/
def fineChecks (low high : ℕ) : List ℕ :=
  ((List.range 7).map (fun i => low + 10 * i)).filter
    (fun p => decide (p ≤ min (low + 60) (high + 10)))

/-- The scan over `finalResults` (app.js lines 3122-3130): start from
`(low, itemsPerPage)` and take each probed page with a positive count. -/
def finePhase (probe : ℕ → Option ℕ) (low high : ℕ) : ℕ × ℕ :=
  (fineChecks low high).foldl
    (fun acc p => if 0 < countOf probe p then (p, countOf probe p) else acc)
    (low, itemsPerPage)

/-- `(lastValidPage, lastPageItems)` of a full estimator run. -/
def sizeEstimate (probe : ℕ → Option ℕ) : ℕ × ℕ :=
  finePhase probe (boundsOf probe).1 (boundsOf probe).2

/-- `totalAuctions = (lastValidPage - 1) * itemsPerPage + lastPageItems`
(app.js line 3132). -/
def loadAuctionCount (probe : ℕ → Option ℕ) : ℕ :=
  ((sizeEstimate probe).1 - 1) * itemsPerPage + (sizeEstimate probe).2

/-! ### Leaderboard rendering (app.js lines 899-966) -/

def ITEMS_PER_PAGE : ℕ := 45

/-- `if (page > 1 && result.length > 0) result = result.slice(1)`
(app.js lines 907-909). -/
def dedupPage {α : Type} (result : List α) (page : ℕ) : List α :=
  if 1 < page ∧ 0 < result.length then result.tail else result

/-- `const startRank = page === 1 ? 1 : (page - 1) * ITEMS_PER_PAGE + 1`
(app.js line 912). -/
def startRank (page : ℕ) : ℕ :=
  if page = 1 then 1 else (page - 1) * ITEMS_PER_PAGE + 1

/-- The rendered cards of `renderLeaderboardTable` (app.js lines 943-964),
abstracted to the (rank, entry) pairs: entry at position `index` after
de-duplication is shown with `rank = startRank + index`. -/
def leaderboardCards {α : Type} (result : List α) (page : ℕ) : List (ℕ × α) :=
  (dedupPage result page).enum.map (fun ia => (startRank page + ia.1, ia.2))

/-- The rank column across the rendering of consecutive pages `1..P`, where
`pages k` is the raw response of page `k`. -/
def ranksConcat (P : ℕ) (pages : ℕ → List ℕ) : List ℕ :=
  (List.range P).flatMap (fun k => (leaderboardCards (pages (k + 1)) (k + 1)).map Prod.fst)

/-! ### Aggregate rollup engine (app.js lines 2831-2856).  A category fetch is
`net cat : LbResponse`: `rejected` is a failed fetch (caught and replaced by
`{ result: [] }`), `noResult` a well-formed response with no `result` field
(the `if (data && data.result)` guard then skips the category), `ok items` a
response whose entries carry the parsed numeric `value` fields (`none` for an
unparseable value, which `parseFloat(...) || 0` turns into `0`). -/

inductive LbResponse where
| rejected : LbResponse
| noResult : LbResponse
| ok : List (Option ℚ) → LbResponse
deriving DecidableEq

def categories : List String :=
  ["money", "shards", "kills", "deaths", "playtime", "placedblocks",
   "brokenblocks", "mobskilled"]

/-- `.catch(() => ({ result: [] }))` (app.js line 2840). -/
def fetchWithCatch (net : String → LbResponse) (cat : String) : LbResponse :=
  match net cat with
  | LbResponse.rejected => LbResponse.ok []
  | r => r

/-- `data.result.forEach(player => { total += parseFloat(...) || 0 })`. -/
def sumValues (items : List (Option ℚ)) : ℚ :=
  items.foldl (fun acc v => acc + v.getD 0) 0

/-- `totals[cat]` after `calculateAggregateStatsParallel` (app.js lines
2844-2856): `none` when the entry was never assigned. -/
def aggregateTotals (net : String → LbResponse) (cat : String) : Option ℚ :=
  if cat ∈ categories then
    match fetchWithCatch net cat with
    | LbResponse.ok items => some (sumValues items * 50)
    | _ => none
  else none

/-! ## Helper lemmas -/

lemma storePriceHistory_at_key (store : Store) (itemId : String) (price : ℚ) (now : ℤ) :
    storePriceHistory store itemId price now (histKey itemId) =
      capPoints (prunePoints now (store (histKey itemId) ++ [⟨now, price⟩])) := by
  simp [storePriceHistory, Function.update]

lemma mem_prunePoints {now : ℤ} {l : List PricePoint} {p : PricePoint}
    (h : p ∈ prunePoints now l) : p ∈ l ∧ thirtyDaysAgo now < p.time := by
  simpa [prunePoints] using h

lemma capPoints_length (l : List PricePoint) : (capPoints l).length ≤ 100 := by
  simp only [capPoints, List.length_drop]
  omega

/-! ## Claim theorems -/

/-- Claim C2 (counterexample): a point recorded at time 0 is still returned by
`getPriceHistory` when read far more than 30 days later; the read applies no
age filter, so the claimed 30-day bound on the result is violated. -/
theorem getPriceHistory_stale_cex :
    getPriceHistory (storePriceHistory (fun _ => []) "diamond" 5 0) "diamond" =
      [⟨0, 5⟩] ∧
    (30 * 24 * 60 * 60 * 1000 : ℤ) < 2592000001 - 0 := by
  constructor
  · rw [getPriceHistory, storePriceHistory_at_key]
    decide
  · decide

/-- Claim C2 (amended): `getPriceHistory` is a pure read that returns the
stored series verbatim — it applies no age filter, so every stored point,
however old, appears in its result. -/
theorem getPriceHistory_no_filter :
    ∀ (store : Store) (itemId : String),
      getPriceHistory store itemId = store (histKey itemId) ∧
      ∀ p ∈ store (histKey itemId), p ∈ getPriceHistory store itemId :=
  fun _ _ => ⟨rfl, fun _ hp => hp⟩

theorem getPriceHistory_no_filter_witness :
    getPriceHistory (fun _ => [⟨0, 5⟩]) "diamond" =
      (fun _ => [(⟨0, 5⟩ : PricePoint)]) (histKey "diamond") ∧
    (⟨0, 5⟩ : PricePoint) ∈ getPriceHistory (fun _ => [⟨0, 5⟩]) "diamond" :=
  ⟨(getPriceHistory_no_filter (fun _ => [⟨0, 5⟩]) "diamond").1,
   (getPriceHistory_no_filter (fun _ => [⟨0, 5⟩]) "diamond").2 ⟨0, 5⟩ (by simp)⟩

/-- Claim C6: after `storePriceHistory`, the stored series has at most 100
points, every remaining point is at most 30 days old relative to `now`, a
post-prune series longer than 100 is cut to exactly 100, and (for a store
respecting the temporal-order invariant) the kept points are the newest ones,
still in temporal order: every dropped point is no newer than any kept one. -/
theorem storePriceHistory_bounds :
    ∀ (store : Store) (itemId : String) (price : ℚ) (now : ℤ),
      (storePriceHistory store itemId price now (histKey itemId)).length ≤ 100 ∧
      (∀ p ∈ storePriceHistory store itemId price now (histKey itemId),
        now - p.time ≤ 30 * 24 * 60 * 60 * 1000) ∧
      (100 ≤ (prunePoints now (store (histKey itemId) ++ [⟨now, price⟩])).length →
        (storePriceHistory store itemId price now (histKey itemId)).length = 100) ∧
      ((store (histKey itemId)).Pairwise (fun a b => a.time ≤ b.time) →
        (∀ p ∈ store (histKey itemId), p.time ≤ now) →
        (storePriceHistory store itemId price now (histKey itemId)).Pairwise
          (fun a b => a.time ≤ b.time) ∧
        ∀ a ∈ (prunePoints now (store (histKey itemId) ++ [⟨now, price⟩])).take
            ((prunePoints now (store (histKey itemId) ++ [⟨now, price⟩])).length - 100),
          ∀ b ∈ storePriceHistory store itemId price now (histKey itemId),
            a.time ≤ b.time) := by
  intro store itemId price now
  rw [storePriceHistory_at_key]
  refine ⟨capPoints_length _, ?_, ?_, ?_⟩
  · intro p hp
    have hp' : p ∈ prunePoints now (store (histKey itemId) ++ [⟨now, price⟩]) :=
      List.mem_of_mem_drop hp
    have := (mem_prunePoints hp').2
    simp only [thirtyDaysAgo] at this
    omega
  · intro h
    simp only [capPoints, List.length_drop]
    omega
  · intro hsort hle
    have hall : List.Pairwise (fun a b : PricePoint => a.time ≤ b.time)
        (store (histKey itemId) ++ [⟨now, price⟩]) := by
      rw [List.pairwise_append]
      refine ⟨hsort, by simp, ?_⟩
      intro a ha b hb
      simp only [List.mem_singleton] at hb
      subst hb
      exact hle a ha
    have hpruned : (prunePoints now (store (histKey itemId) ++ [⟨now, price⟩])).Pairwise
        (fun a b => a.time ≤ b.time) := List.Pairwise.filter _ hall
    constructor
    · exact hpruned.sublist (List.drop_sublist _ _)
    · intro a ha b hb
      have h2 : List.Pairwise (fun a b : PricePoint => a.time ≤ b.time)
          (List.take ((prunePoints now (store (histKey itemId) ++ [⟨now, price⟩])).length - 100)
            (prunePoints now (store (histKey itemId) ++ [⟨now, price⟩])) ++
           List.drop ((prunePoints now (store (histKey itemId) ++ [⟨now, price⟩])).length - 100)
            (prunePoints now (store (histKey itemId) ++ [⟨now, price⟩]))) := by
        rw [List.take_append_drop]
        exact hpruned
      have hb' : b ∈ List.drop
          ((prunePoints now (store (histKey itemId) ++ [⟨now, price⟩])).length - 100)
          (prunePoints now (store (histKey itemId) ++ [⟨now, price⟩])) := hb
      exact (List.pairwise_append.mp h2).2.2 a ha b hb'

theorem storePriceHistory_bounds_witness :
    (storePriceHistory (fun _ => []) "diamond" 5 0 (histKey "diamond")).length ≤ 100 ∧
    (storePriceHistory (fun _ => []) "diamond" 5 0 (histKey "diamond")).Pairwise
      (fun a b => a.time ≤ b.time) :=
  ⟨(storePriceHistory_bounds (fun _ => []) "diamond" 5 0).1,
   ((storePriceHistory_bounds (fun _ => []) "diamond" 5 0).2.2.2
      (by simp) (by simp)).1⟩

/-- Claim C7 (counterexample): on the sequence with prices `-100, 100` the
last price exceeds the first, yet `calculatePriceTrend` reports direction
`"down"` (the code takes the sign of `(last-first)/first*100`, which flips
when the first price is negative), so the claimed
"direction is up iff last > first" fails as stated. -/
theorem calculatePriceTrend_cex :
    calculatePriceTrend [⟨0, -100⟩, ⟨1, 100⟩] = some ⟨"-200.0", "down"⟩ ∧
    (-100 : ℚ) < 100 ∧ ("down" : String) ≠ "up" := by
  refine ⟨?_, by norm_num, by decide⟩
  rw [calculatePriceTrend, if_neg (by norm_num)]
  simp only [List.map_cons, List.map_nil, List.headI, List.getLastD_eq_getLast?,
    List.getLast?_cons_cons, List.getLast?_singleton, Option.getD_some]
  rw [if_neg (by norm_num : ¬ (-100 : ℚ) = 0)]
  have hc : ((100 : ℚ) - -100) / -100 * 100 = -200 := by norm_num
  rw [hc, if_neg (by norm_num : ¬ (0 : ℚ) < -200),
    if_pos (by norm_num : (-200 : ℚ) < 0)]
  decide

/-- Claim C7 (amended): fewer than 2 points yields the neutral result (no
trend, no polyline, flat glyph); a zero first price yields `none`; and for a
non-negative first price the direction is `up`/`down`/`neutral` exactly by
comparing last and first, with the percentage `(last-first)/first*100`
rendered to one decimal (e.g. `"50.0"` for prices 100, 150).  The comparison
form of the direction requires the first price to be non-negative, which the
counterexample shows is necessary. -/
theorem calculatePriceTrend_spec :
    (∀ data : List PricePoint, data.length < 2 →
      calculatePriceTrend data = none ∧
      generateSparkline data = SparklineView.neutralGlyph) ∧
    (∀ (data : List PricePoint) (a b : PricePoint),
      2 ≤ data.length → data.head? = some a → data.getLast? = some b →
      0 ≤ a.price →
      calculatePriceTrend data =
        if a.price = 0 then none
        else some ⟨toFixed1 ((b.price - a.price) / a.price * 100),
          if a.price < b.price then "up"
          else if b.price < a.price then "down" else "neutral"⟩) ∧
    toFixed1 50 = "50.0" := by
  refine ⟨?_, ?_, by decide⟩
  · intro data hlen
    constructor
    · rw [calculatePriceTrend, if_pos hlen]
    · rw [generateSparkline, if_pos hlen]
  · intro data a b hlen hhead hlast hpos
    cases data with
    | nil => simp at hhead
    | cons x xs =>
      obtain rfl : a = x := by simpa using hhead.symm
      have hh : ((a :: xs).map (fun d => d.price)).headI = a.price := by simp
      have hl : ((a :: xs).map (fun d => d.price)).getLastD 0 = b.price := by
        rw [List.getLastD_eq_getLast?, List.getLast?_map, hlast]
        rfl
      rw [calculatePriceTrend, if_neg (by omega : ¬ (a :: xs).length < 2)]
      simp only [hh, hl]
      by_cases h0 : a.price = 0
      · rw [if_pos h0, if_pos h0]
      · rw [if_neg h0, if_neg h0]
        have hpos' : 0 < a.price := lt_of_le_of_ne hpos (Ne.symm h0)
        have h100 : (0 : ℚ) < 100 := by norm_num
        rcases lt_trichotomy a.price b.price with h | h | h
        · have hch : 0 < (b.price - a.price) / a.price * 100 :=
            mul_pos (div_pos (by linarith) hpos') h100
          rw [if_pos hch, if_pos h]
        · have hch : (b.price - a.price) / a.price * 100 = 0 := by
            rw [h]
            ring
          rw [hch, if_neg (lt_irrefl 0), if_neg (lt_irrefl 0),
            if_neg (by rw [h]; exact lt_irrefl b.price),
            if_neg (by rw [h]; exact lt_irrefl b.price)]
        · have hch : (b.price - a.price) / a.price * 100 < 0 :=
            mul_neg_of_neg_of_pos (div_neg_of_neg_of_pos (by linarith) hpos') h100
          rw [if_neg (by linarith : ¬ (0 : ℚ) < (b.price - a.price) / a.price * 100),
            if_pos hch, if_neg (by linarith : ¬ a.price < b.price), if_pos h]

theorem calculatePriceTrend_spec_witness :
    (calculatePriceTrend [⟨0, 100⟩] = none ∧
      generateSparkline [⟨0, 100⟩] = SparklineView.neutralGlyph) ∧
    calculatePriceTrend [⟨0, 100⟩, ⟨1, 150⟩] =
      (if (100 : ℚ) = 0 then none
       else some ⟨toFixed1 (((150 : ℚ) - 100) / 100 * 100),
         if (100 : ℚ) < 150 then "up"
         else if (150 : ℚ) < 100 then "down" else "neutral"⟩) :=
  ⟨calculatePriceTrend_spec.1 [⟨0, 100⟩] (by decide),
   calculatePriceTrend_spec.2.1 [⟨0, 100⟩, ⟨1, 150⟩] ⟨0, 100⟩ ⟨1, 150⟩
     (by decide) (by decide) (by decide) (by norm_num)⟩

/-- Claim C8: on the de-duplicated rendering of page `p`, the entry at
0-indexed position `i` is displayed with rank `i + 1` on page 1 and
`(p - 1) * 45 + i + 1` on later pages; a raw page of positive length loses
exactly its first item on pages after the first. -/
theorem leaderboard_rank_formula :
    (∀ (result : List ℕ) (page i : ℕ) (h : i < (leaderboardCards result page).length),
      ((leaderboardCards result page).get ⟨i, h⟩).1 =
        if page = 1 then i + 1 else (page - 1) * 45 + i + 1) ∧
    (∀ (result : List ℕ) (page : ℕ), 1 < page → 0 < result.length →
      (dedupPage result page).length = result.length - 1) := by
  constructor
  · intro result page i h
    have h' : i < (dedupPage result page).length := by
      simpa [leaderboardCards] using h
    rw [List.get_eq_getElem]
    simp only [leaderboardCards, List.getElem_map, List.getElem_enum]
    rw [startRank, ITEMS_PER_PAGE]
    by_cases hp : page = 1
    · rw [if_pos hp, if_pos hp]
      omega
    · rw [if_neg hp, if_neg hp]
      omega
  · intro result page h1 h2
    rw [dedupPage, if_pos ⟨h1, h2⟩, List.length_tail]

theorem leaderboard_rank_formula_witness :
    ((leaderboardCards (List.range' 1 45) 2).get ⟨0, by decide⟩).1 =
      (if (2 : ℕ) = 1 then 0 + 1 else (2 - 1) * 45 + 0 + 1) ∧
    (dedupPage (List.range' 1 45) 2).length = (List.range' 1 45).length - 1 ∧
    ((leaderboardCards (List.range' 1 45) 2).get ⟨0, by decide⟩).1 = 46 :=
  ⟨leaderboard_rank_formula.1 (List.range' 1 45) 2 0 (by decide),
   leaderboard_rank_formula.2 (List.range' 1 45) 2 (by decide) (by decide),
   by decide⟩

/-- Claim C9: per category, the rollup is the sum of the parsed numeric value
field over the category's first page, times the fixed extrapolation constant
50; a category whose fetch is rejected contributes exactly `0`, and each
category's total depends only on that category's own response, so one failing
category cannot disturb the others. -/
theorem aggregate_rollup :
    ∀ (net : String → LbResponse) (cat : String), cat ∈ categories →
      (net cat = LbResponse.rejected → aggregateTotals net cat = some 0) ∧
      (∀ items, net cat = LbResponse.ok items →
        aggregateTotals net cat = some (sumValues items * 50)) ∧
      (∀ net' : String → LbResponse, net' cat = net cat →
        aggregateTotals net' cat = aggregateTotals net cat) := by
  intro net cat hcat
  refine ⟨?_, ?_, ?_⟩
  · intro h
    simp [aggregateTotals, if_pos hcat, fetchWithCatch, h, sumValues]
  · intro items h
    simp [aggregateTotals, if_pos hcat, fetchWithCatch, h]
  · intro net' h
    simp [aggregateTotals, fetchWithCatch, h]

theorem aggregate_rollup_witness :
    aggregateTotals (fun _ => LbResponse.rejected) "money" = some 0 ∧
    aggregateTotals (fun _ => LbResponse.ok [some 3, none]) "kills" =
      some (sumValues [some 3, none] * 50) :=
  ⟨(aggregate_rollup (fun _ => LbResponse.rejected) "money" (by decide)).1 rfl,
   (aggregate_rollup (fun _ => LbResponse.ok [some 3, none]) "kills"
      (by decide)).2.1 [some 3, none] rfl⟩

/-! ## Binary-narrowing loop lemmas -/

lemma binaryAux_congr (valid : ℕ → ℕ → Bool) :
    ∀ f₁ f₂ k low high, high - low ≤ f₁ → high - low ≤ f₂ →
      binaryAux valid f₁ k low high = binaryAux valid f₂ k low high := by
  intro f₁
  induction f₁ with
  | zero =>
    intro f₂ k low high h1 h2
    cases f₂ with
    | zero => rfl
    | succ g =>
      simp only [binaryAux]
      rw [if_neg (by omega)]
  | succ f ih =>
    intro f₂ k low high h1 h2
    cases f₂ with
    | zero =>
      simp only [binaryAux]
      rw [if_neg (by omega)]
    | succ g =>
      simp only [binaryAux]
      by_cases hc : low + 50 < high
      · rw [if_pos hc, if_pos hc]
        by_cases hv : valid k ((low + high) / 2)
        · rw [if_pos hv, if_pos hv,
            ih g (k + 1) ((low + high) / 2) high (by omega) (by omega)]
        · rw [if_neg hv, if_neg hv,
            ih g (k + 1) low ((low + high) / 2) (by omega) (by omega)]
      · rw [if_neg hc, if_neg hc]

/-- The fuel-based `binaryGo` satisfies exactly the fixed-point equation of
the source's `while (low + 50 < high)` loop, so the encoding is faithful. -/
lemma binaryGo_eq (valid : ℕ → ℕ → Bool) (k low high : ℕ) :
    binaryGo valid k low high =
      if low + 50 < high then
        (if valid k ((low + high) / 2)
          then binaryGo valid (k + 1) ((low + high) / 2) high
          else binaryGo valid (k + 1) low ((low + high) / 2))
      else (low, high) := by
  by_cases hc : low + 50 < high
  · rw [if_pos hc]
    unfold binaryGo
    obtain ⟨f, hf⟩ : ∃ f, high - low = f + 1 := ⟨high - low - 1, by omega⟩
    rw [hf]
    simp only [binaryAux, if_pos hc]
    by_cases hv : valid k ((low + high) / 2)
    · rw [if_pos hv, if_pos hv,
        binaryAux_congr valid f (high - (low + high) / 2) (k + 1)
          ((low + high) / 2) high (by omega) (by omega)]
    · rw [if_neg hv, if_neg hv,
        binaryAux_congr valid f ((low + high) / 2 - low) (k + 1)
          low ((low + high) / 2) (by omega) (by omega)]
  · rw [if_neg hc]
    unfold binaryGo
    cases hg : high - low with
    | zero => rfl
    | succ f =>
      simp only [binaryAux]
      rw [if_neg hc]

lemma binaryAux_bounds (valid : ℕ → ℕ → Bool) :
    ∀ f k low high,
      low ≤ (binaryAux valid f k low high).1.1 ∧
      (binaryAux valid f k low high).1.2 ≤ high ∧
      (binaryAux valid f k low high).1.1 ≤ max low high ∧
      ((binaryAux valid f k low high).1.1 = low ∨
        ∃ j, valid j ((binaryAux valid f k low high).1.1) = true) := by
  intro f
  induction f with
  | zero =>
    intro k low high
    exact ⟨le_refl _, le_refl _, le_max_left _ _, Or.inl rfl⟩
  | succ f ih =>
    intro k low high
    simp only [binaryAux]
    by_cases hc : low + 50 < high
    · rw [if_pos hc]
      by_cases hv : valid k ((low + high) / 2)
      · rw [if_pos hv]
        obtain ⟨ih1, ih2, ih3, ih4⟩ := ih (k + 1) ((low + high) / 2) high
        refine ⟨le_trans (by omega) ih1, ih2, ?_, ?_⟩
        · refine le_trans ih3 (max_le ?_ (le_max_right _ _))
          have hmh : (low + high) / 2 ≤ high := by omega
          exact le_trans hmh (le_max_right _ _)
        · rcases ih4 with h | h
          · exact Or.inr ⟨k, by rw [h]; exact hv⟩
          · exact Or.inr h
      · rw [if_neg hv]
        obtain ⟨ih1, ih2, ih3, ih4⟩ := ih (k + 1) low ((low + high) / 2)
        refine ⟨ih1, le_trans ih2 (by omega), ?_, ih4⟩
        refine le_trans ih3 (max_le (le_max_left _ _) ?_)
        have hmh : (low + high) / 2 ≤ high := by omega
        exact le_trans hmh (le_max_right _ _)
    · rw [if_neg hc]
      exact ⟨le_refl _, le_refl _, le_max_left _ _, Or.inl rfl⟩

lemma binaryAux_steps_le (valid : ℕ → ℕ → Bool) :
    ∀ f k low high, high - low ≤ f →
      (binaryAux valid f k low high).2 ≤ Nat.clog 2 (high - low) := by
  intro f
  induction f with
  | zero =>
    intro k low high h
    simp [binaryAux]
  | succ f ih =>
    intro k low high h
    simp only [binaryAux]
    by_cases hc : low + 50 < high
    · rw [if_pos hc]
      have hg2 : 2 ≤ high - low := by omega
      have hrec : Nat.clog 2 (high - low) =
          Nat.clog 2 ((high - low + 2 - 1) / 2) + 1 :=
        Nat.clog_of_two_le (by norm_num) hg2
      by_cases hv : valid k ((low + high) / 2)
      · rw [if_pos hv]
        have h1 := ih (k + 1) ((low + high) / 2) high (by omega)
        have h2 : Nat.clog 2 (high - (low + high) / 2) ≤
            Nat.clog 2 ((high - low + 2 - 1) / 2) :=
          Nat.clog_mono_right 2 (by omega)
        have hgoal : (binaryAux valid f (k + 1) ((low + high) / 2) high).2 + 1 ≤
            Nat.clog 2 (high - low) := by omega
        exact hgoal
      · rw [if_neg hv]
        have h1 := ih (k + 1) low ((low + high) / 2) (by omega)
        have h2 : Nat.clog 2 ((low + high) / 2 - low) ≤
            Nat.clog 2 ((high - low + 2 - 1) / 2) :=
          Nat.clog_mono_right 2 (by omega)
        have hgoal : (binaryAux valid f (k + 1) low ((low + high) / 2)).2 + 1 ≤
            Nat.clog 2 (high - low) := by omega
        exact hgoal
    · rw [if_neg hc]
      simp

/-- Claim C5: the binary-narrowing loop always terminates — whenever the loop
guard `low + 50 < high` holds, probing the midpoint strictly shrinks the
interval whichever way the probe goes — and its iteration count is
logarithmic in the initial range (`binSteps` is totally defined, and is
bounded by `⌈log₂ (high - low)⌉` for every probe-outcome oracle). -/
theorem binary_narrowing_log :
    ∀ (valid : ℕ → ℕ → Bool) (k low high : ℕ),
      (low + 50 < high →
        high - (low + high) / 2 < high - low ∧
        (low + high) / 2 - low < high - low) ∧
      binSteps valid k low high ≤ Nat.clog 2 (high - low) := by
  intro valid k low high
  constructor
  · intro hc
    constructor <;> omega
  · exact binaryAux_steps_le valid (high - low) k low high (le_refl _)

theorem binary_narrowing_log_witness :
    (200 - (0 + 200) / 2 < 200 - 0 ∧ (0 + 200) / 2 - 0 < 200 - 0) ∧
    binSteps (fun _ _ => true) 0 0 200 ≤ Nat.clog 2 (200 - 0) :=
  ⟨(binary_narrowing_log (fun _ _ => true) 0 0 200).1 (by norm_num),
   (binary_narrowing_log (fun _ _ => true) 0 0 200).2⟩

/-! ## Coarse-scan and fine-phase lemmas -/

lemma coarseLoop_low (valid : ℕ → Bool) :
    ∀ (l : List ℕ) (low high : ℕ), (low = 1 ∨ valid low = true) →
      ((coarseLoop valid l low high).1 = 1 ∨
        valid (coarseLoop valid l low high).1 = true) := by
  intro l
  induction l with
  | nil => intro low high h; exact h
  | cons p rest ih =>
    intro low high h
    simp only [coarseLoop]
    by_cases hv : valid p
    · rw [if_pos hv]
      exact ih p high (Or.inr hv)
    · rw [if_neg hv]
      exact h

lemma coarseLoop_le (valid : ℕ → Bool) (B : ℕ) :
    ∀ (l : List ℕ) (low high : ℕ), low ≤ B → high ≤ B → (∀ p ∈ l, p ≤ B) →
      (coarseLoop valid l low high).1 ≤ B ∧ (coarseLoop valid l low high).2 ≤ B := by
  intro l
  induction l with
  | nil => intro low high h1 h2 _; exact ⟨h1, h2⟩
  | cons p rest ih =>
    intro low high h1 h2 hl
    simp only [coarseLoop]
    by_cases hv : valid p
    · rw [if_pos hv]
      exact ih p high (hl p (by simp)) h2 (fun q hq => hl q (by simp [hq]))
    · rw [if_neg hv]
      exact ⟨h1, hl p (by simp)⟩

lemma finePhase_cases (probe : ℕ → Option ℕ) (low high : ℕ) :
    (finePhase probe low high = (low, itemsPerPage) ∧
      (finePhase probe low high).1 = low) ∨
    ((finePhase probe low high).1 ∈ fineChecks low high ∧
      (finePhase probe low high).2 = countOf probe (finePhase probe low high).1 ∧
      0 < countOf probe (finePhase probe low high).1) := by
  rw [finePhase]
  generalize hl : fineChecks low high = l
  have main : ∀ (l' : List ℕ) (init : ℕ × ℕ),
      (l'.foldl (fun acc p => if 0 < countOf probe p then (p, countOf probe p) else acc)
        init = init) ∨
      ((l'.foldl (fun acc p => if 0 < countOf probe p then (p, countOf probe p) else acc)
        init).1 ∈ l' ∧
       (l'.foldl (fun acc p => if 0 < countOf probe p then (p, countOf probe p) else acc)
        init).2 =
        countOf probe ((l'.foldl
          (fun acc p => if 0 < countOf probe p then (p, countOf probe p) else acc)
          init).1) ∧
       0 < countOf probe ((l'.foldl
          (fun acc p => if 0 < countOf probe p then (p, countOf probe p) else acc)
          init).1)) := by
    intro l'
    induction l' with
    | nil => intro init; exact Or.inl rfl
    | cons x xs ih =>
      intro init
      simp only [List.foldl_cons]
      by_cases hx : 0 < countOf probe x
      · rw [if_pos hx]
        rcases ih (x, countOf probe x) with h | h
        · rw [h]
          exact Or.inr ⟨by simp, rfl, hx⟩
        · exact Or.inr ⟨by simp [h.1], h.2.1, h.2.2⟩
      · rw [if_neg hx]
        rcases ih init with h | h
        · exact Or.inl h
        · exact Or.inr ⟨by simp [h.1], h.2.1, h.2.2⟩
  rcases main l (low, itemsPerPage) with h | h
  · exact Or.inl ⟨h, by rw [h]⟩
  · exact Or.inr h

lemma mem_fineChecks_le {low high p : ℕ} (h : p ∈ fineChecks low high) :
    low ≤ p ∧ p ≤ min (low + 60) (high + 10) := by
  simp only [fineChecks, List.mem_filter, List.mem_map, List.mem_range,
    decide_eq_true_eq] at h
  obtain ⟨⟨i, _, rfl⟩, h2⟩ := h
  exact ⟨by omega, h2⟩

/-- Claim C4: a probe that errors is classified exactly like a probe that
returns zero items — replacing every error by a well-formed empty page
changes nothing in any phase of the estimator — and the narrowing can only
move `high` down and `low` up, with `low` only ever advanced to a page whose
probe was classified valid (and the fine phase's `lastValidPage` likewise
only moves to a page with a positive item count). -/
theorem probe_error_as_empty :
    ∀ probe : ℕ → Option ℕ,
      validOf (errZero probe) = validOf probe ∧
      countOf (errZero probe) = countOf probe ∧
      boundsOf (errZero probe) = boundsOf probe ∧
      sizeEstimate (errZero probe) = sizeEstimate probe ∧
      loadAuctionCount (errZero probe) = loadAuctionCount probe ∧
      ((coarseBounds (validOf probe)).1 = 1 ∨
        validOf probe ((coarseBounds (validOf probe)).1) = true) ∧
      (∀ low high,
        low ≤ (binaryGo (fun _ p => validOf probe p) 0 low high).1 ∧
        (binaryGo (fun _ p => validOf probe p) 0 low high).2 ≤ high ∧
        ((binaryGo (fun _ p => validOf probe p) 0 low high).1 = low ∨
          validOf probe ((binaryGo (fun _ p => validOf probe p) 0 low high).1) = true)) ∧
      (∀ low high, (finePhase probe low high).1 = low ∨
        0 < countOf probe ((finePhase probe low high).1)) := by
  intro probe
  have hv : validOf (errZero probe) = validOf probe := by
    funext p
    cases hp : probe p <;> simp [validOf, errZero, hp]
  have hcnt : countOf (errZero probe) = countOf probe := by
    funext p
    cases hp : probe p <;> simp [countOf, errZero, hp]
  have hbounds : boundsOf (errZero probe) = boundsOf probe := by
    rw [boundsOf, boundsOf, hv]
  have hfine : ∀ low high, finePhase (errZero probe) low high = finePhase probe low high := by
    intro low high
    rw [finePhase, finePhase, hcnt]
  have hsize : sizeEstimate (errZero probe) = sizeEstimate probe := by
    rw [sizeEstimate, sizeEstimate, hbounds, hfine]
  refine ⟨hv, hcnt, hbounds, hsize, ?_, ?_, ?_, ?_⟩
  · rw [loadAuctionCount, loadAuctionCount, hsize]
  · exact coarseLoop_low (validOf probe) checkPages 1 100 (Or.inl rfl)
  · intro low high
    obtain ⟨h1, h2, _, h4⟩ :=
      binaryAux_bounds (fun _ p => validOf probe p) (high - low) 0 low high
    refine ⟨h1, h2, ?_⟩
    rcases h4 with h | ⟨_, h⟩
    · exact Or.inl h
    · exact Or.inr h
  · intro low high
    rcases finePhase_cases probe low high with ⟨_, h⟩ | ⟨_, _, h⟩
    · exact Or.inl h
    · exact Or.inr h

/-- Claim C10: the estimator's answer is capped by its fixed probe horizon —
`lastValidPage ≤ 2510` for every probe oracle; if no page ever reports more
than 44 items the reported total is at most `110440`; and when every coarse
candidate page (up to 2500) is valid, the stale `high = 100` default makes
the binary and fine phases do nothing, so the estimator reports exactly
`(2500 - 1) * 44 + 44 = 110000` without probing beyond page 2500. -/
theorem loadAuctionCount_bounded :
    (∀ probe : ℕ → Option ℕ, (sizeEstimate probe).1 ≤ 2510) ∧
    (∀ probe : ℕ → Option ℕ, (∀ p, countOf probe p ≤ 44) →
      loadAuctionCount probe ≤ 110440) ∧
    (∀ probe : ℕ → Option ℕ, (∀ p ∈ checkPages, validOf probe p = true) →
      boundsOf probe = (2500, 100) ∧ fineChecks 2500 100 = [] ∧
      loadAuctionCount probe = 110000) := by
  have hkey : ∀ probe : ℕ → Option ℕ, (sizeEstimate probe).1 ≤ 2510 := by
    intro probe
    have hcoarse := coarseLoop_le (validOf probe) 2500 checkPages 1 100
      (by norm_num) (by norm_num) (by decide)
    obtain ⟨_, hb2, hb3, _⟩ :=
      binaryAux_bounds (fun _ p => validOf probe p)
        ((coarseBounds (validOf probe)).2 - (coarseBounds (validOf probe)).1) 0
        (coarseBounds (validOf probe)).1 (coarseBounds (validOf probe)).2
    have hlow : (boundsOf probe).1 ≤ 2500 := by
      have := max_le hcoarse.1 hcoarse.2
      exact le_trans hb3 this
    have hhigh : (boundsOf probe).2 ≤ 2500 := le_trans hb2 hcoarse.2
    rcases finePhase_cases probe (boundsOf probe).1 (boundsOf probe).2 with
      ⟨_, h⟩ | ⟨hmem, _, _⟩
    · rw [sizeEstimate]
      omega
    · have := (mem_fineChecks_le hmem).2
      rw [sizeEstimate]
      omega
  refine ⟨hkey, ?_, ?_⟩
  · intro probe hcnt
    have h1 := hkey probe
    have h2 : (sizeEstimate probe).2 ≤ 44 := by
      rcases finePhase_cases probe (boundsOf probe).1 (boundsOf probe).2 with
        ⟨h, _⟩ | ⟨_, h, _⟩
      · rw [sizeEstimate, h, itemsPerPage]
      · rw [sizeEstimate, h]
        exact hcnt _
    rw [loadAuctionCount, itemsPerPage]
    have hmul : ((sizeEstimate probe).1 - 1) * 44 ≤ 2509 * 44 :=
      Nat.mul_le_mul_right 44 (by omega)
    omega
  · intro probe hall
    have h100 := hall 100 (by decide)
    have h500 := hall 500 (by decide)
    have h1000 := hall 1000 (by decide)
    have h1500 := hall 1500 (by decide)
    have h2000 := hall 2000 (by decide)
    have h2500 := hall 2500 (by decide)
    have hcb : coarseBounds (validOf probe) = (2500, 100) := by
      rw [coarseBounds, checkPages]
      simp only [coarseLoop, h100, h500, h1000, h1500, h2000, h2500, if_true]
    have hbo : boundsOf probe = (2500, 100) := by
      rw [boundsOf, hcb]
      exact rfl
    have hfc : fineChecks 2500 100 = [] := by decide
    refine ⟨hbo, hfc, ?_⟩
    rw [loadAuctionCount, sizeEstimate, hbo]
    simp only [finePhase, hfc, List.foldl_nil]
    rw [itemsPerPage]

theorem loadAuctionCount_bounded_witness :
    (sizeEstimate (fun _ => some 44)).1 ≤ 2510 ∧
    loadAuctionCount (fun _ => some 44) ≤ 110440 ∧
    (boundsOf (fun _ => some 44) = (2500, 100) ∧ fineChecks 2500 100 = [] ∧
      loadAuctionCount (fun _ => some 44) = 110000) :=
  ⟨loadAuctionCount_bounded.1 (fun _ => some 44),
   loadAuctionCount_bounded.2.1 (fun _ => some 44) (fun _ => Nat.le_refl 44),
   loadAuctionCount_bounded.2.2 (fun _ => some 44) (fun _ _ => rfl)⟩

lemma foldl_pick_last (cnt : ℕ → ℕ) :
    ∀ (l : List ℕ) (init : ℕ × ℕ),
      l.foldl (fun acc p => if 0 < cnt p then (p, cnt p) else acc) init =
        (((l.filter (fun p => decide (0 < cnt p))).getLast?.map
          (fun q => (q, cnt q))).getD init) := by
  intro l
  induction l with
  | nil => intro init; rfl
  | cons x xs ih =>
    intro init
    simp only [List.foldl_cons, List.filter_cons]
    by_cases hx : 0 < cnt x
    · rw [if_pos hx, if_pos (decide_eq_true hx), ih (x, cnt x)]
      cases hlast : (xs.filter (fun p => decide (0 < cnt p))).getLast? with
      | none =>
        have hnil : xs.filter (fun p => decide (0 < cnt p)) = [] :=
          List.getLast?_eq_none_iff.mp hlast
        rw [hnil]
        simp [List.getLast?_singleton]
      | some q =>
        have hne : xs.filter (fun p => decide (0 < cnt p)) ≠ [] := by
          intro e
          rw [e] at hlast
          simp at hlast
        obtain ⟨b, L, hbl⟩ := List.exists_cons_of_ne_nil hne
        rw [hbl] at hlast
        rw [hbl, List.getLast?_cons_cons, hlast]
        simp
    · rw [if_neg hx, if_neg (by simpa using hx)]
      exact ih init

/-- Claim C3 (counterexample): take a probe for which every page before 50 is
non-empty and the rest are empty.  The binary phase ends with `low = 1`,
`high = 50` (gap 49 ≤ 50), and the claimed probe set `[low, low+60]` in steps
of 10 contains page 61, yet the code only probes up to
`min(low+60, high+10) = 60`, so page 61 is never probed. -/
theorem fine_range_cex :
    boundsOf (fun p => if p < 50 then some 44 else some 0) = (1, 50) ∧
    50 - 1 ≤ 50 ∧
    (61 - 1) % 10 = 0 ∧ 61 ≤ 1 + 60 ∧
    61 ∉ fineChecks 1 50 := by
  refine ⟨?_, by norm_num, by norm_num, by norm_num, by decide⟩
  decide

/-- Claim C3 (amended): after the binary phase the fine confirmation probes
every page in `[low, min(low + 60, high + 10)]` in steps of 10 (a subset of
the claimed `[low, low + 60]`, possibly empty); `lastValidPage` /
`lastPageItemCount` are the last probed page (in increasing page order, hence
the largest) with a positive item count, defaulting to `(low, 44)` when no
probed page is non-empty; and the returned estimate is
`(lastValidPage - 1) * 44 + lastPageItemCount`. -/
theorem fine_confirmation_range :
    ∀ (probe : ℕ → Option ℕ) (low high : ℕ),
      (∀ p, p ∈ fineChecks low high ↔
        (low ≤ p ∧ p ≤ min (low + 60) (high + 10) ∧ (p - low) % 10 = 0)) ∧
      finePhase probe low high =
        (((fineChecks low high).filter
            (fun p => decide (0 < countOf probe p))).getLast?.map
          (fun q => (q, countOf probe q))).getD (low, itemsPerPage) ∧
      loadAuctionCount probe =
        ((sizeEstimate probe).1 - 1) * itemsPerPage + (sizeEstimate probe).2 := by
  intro probe low high
  refine ⟨?_, ?_, rfl⟩
  · intro p
    constructor
    · intro h
      simp only [fineChecks, List.mem_filter, List.mem_map, List.mem_range,
        decide_eq_true_eq] at h
      obtain ⟨⟨i, hi, rfl⟩, h2⟩ := h
      exact ⟨by omega, h2, by omega⟩
    · rintro ⟨h1, h2, h3⟩
      simp only [fineChecks, List.mem_filter, List.mem_map, List.mem_range,
        decide_eq_true_eq]
      exact ⟨⟨(p - low) / 10, by omega, by omega⟩, h2⟩
  · rw [finePhase]
    exact foldl_pick_last (countOf probe) (fineChecks low high) (low, itemsPerPage)

/-! ## Rank-sequence lemmas for the paginated leaderboard -/

/-- The rank column contributed by page `k + 1` when every raw page holds 45
items: 45 consecutive ranks on page 1, 44 on every later page. -/
def pageRanks45 (k : ℕ) : List ℕ :=
  List.range' (startRank (k + 1)) (if k = 0 then 45 else 44)

lemma pageRanks45_length (k : ℕ) :
    (pageRanks45 k).length = if k = 0 then 45 else 44 := by
  simp [pageRanks45, List.length_range']

lemma pageRanks45_ne_nil (k : ℕ) : pageRanks45 k ≠ [] := by
  intro h
  have hlen := pageRanks45_length k
  rw [h] at hlen
  by_cases hk : k = 0
  · rw [if_pos hk] at hlen
    simp at hlen
  · rw [if_neg hk] at hlen
    simp at hlen

lemma cards_map_fst (pg : List ℕ) (p : ℕ) :
    (leaderboardCards pg p).map Prod.fst =
      List.range' (startRank p) (dedupPage pg p).length := by
  unfold leaderboardCards
  rw [List.map_map]
  have h1 : (Prod.fst ∘ fun ia : ℕ × ℕ => (startRank p + ia.1, ia.2)) =
      ((fun x => startRank p + x) ∘ Prod.fst) := rfl
  rw [h1, ← List.map_map, List.enum_map_fst, ← List.range'_eq_map_range]

lemma ranksConcat_eq (P : ℕ) (pages : ℕ → List ℕ)
    (h : ∀ k, 1 ≤ k → k ≤ P → (pages k).length = 45) :
    ranksConcat P pages = (List.range P).flatMap pageRanks45 := by
  unfold ranksConcat
  apply List.flatMap_congr
  intro k hk
  have hk' : k < P := List.mem_range.mp hk
  have hlen : (pages (k + 1)).length = 45 := h (k + 1) (by omega) (by omega)
  rw [cards_map_fst]
  unfold pageRanks45
  congr 1
  by_cases hk0 : k = 0
  · subst hk0
    rw [if_pos rfl]
    unfold dedupPage
    rw [if_neg (by omega)]
    exact hlen
  · rw [if_neg hk0]
    unfold dedupPage
    rw [if_pos ⟨by omega, by rw [hlen]; norm_num⟩, List.length_tail, hlen]

lemma getLast?_range' : ∀ (n s : ℕ), 0 < n →
    (List.range' s n).getLast? = some (s + n - 1) := by
  intro n
  induction n with
  | zero => intro s h; exact absurd h (by omega)
  | succ n ih =>
    intro s _
    cases n with
    | zero => simp [List.range'_one]
    | succ m =>
      rw [List.range'_succ, List.range'_succ, List.getLast?_cons_cons,
        ← List.range'_succ, ih (s + 1) (by omega)]
      congr 1
      omega

lemma flat_getLast? : ∀ P, 0 < P →
    ((List.range P).flatMap pageRanks45).getLast? = (pageRanks45 (P - 1)).getLast? := by
  intro P
  induction P with
  | zero => intro h; exact absurd h (by omega)
  | succ n ih =>
    intro _
    rw [List.range_succ, List.flatMap_append]
    simp only [List.flatMap_cons, List.flatMap_nil, List.append_nil]
    rw [List.getLast?_append_of_ne_nil _ (pageRanks45_ne_nil n)]
    simp

lemma chainLt_flat : ∀ P, List.Chain' (· < ·) ((List.range P).flatMap pageRanks45) := by
  intro P
  induction P with
  | zero => simp
  | succ n ih =>
    rw [List.range_succ, List.flatMap_append]
    simp only [List.flatMap_cons, List.flatMap_nil, List.append_nil]
    refine List.Chain'.append ih ?_ ?_
    · have := List.pairwise_lt_range' (startRank (n + 1)) (if n = 0 then 45 else 44) 1
      exact this.chain'
    · intro x hx y hy
      cases n with
      | zero => simp at hx
      | succ m =>
        rw [flat_getLast? (m + 1) (by omega)] at hx
        have hx' : (pageRanks45 (m + 1 - 1)).getLast? =
            some (startRank (m + 1) + (if m = 0 then 45 else 44) - 1) := by
          show (pageRanks45 m).getLast? = _
          rw [pageRanks45, getLast?_range' _ _ (by by_cases hm : m = 0 <;> simp [hm])]
        rw [hx'] at hx
        have hy' : (pageRanks45 (m + 1)).head? = some (startRank (m + 2)) := by
          rw [pageRanks45, List.head?_range']
          simp
        rw [hy'] at hy
        have hxe : (startRank (m + 1) + if m = 0 then 45 else 44) - 1 = x := by
          simpa using hx
        have hye : startRank (m + 2) = y := by simpa using hy
        subst hxe hye
        unfold startRank ITEMS_PER_PAGE
        by_cases hm : m = 0 <;> (simp [hm]; try omega)

lemma chain'_succ_range' : ∀ (n s : ℕ),
    List.Chain' (fun a b => b = a + 1) (List.range' s n) := by
  intro n
  induction n with
  | zero => intro s; simp
  | succ n ih =>
    intro s
    rw [List.range'_succ, List.chain'_cons']
    refine ⟨?_, ih (s + 1)⟩
    intro y hy
    cases n with
    | zero => simp at hy
    | succ m =>
      rw [List.range'_succ, List.head?_cons] at hy
      simpa using hy.symm

lemma flat_three : (List.range 3).flatMap pageRanks45 =
    pageRanks45 0 ++ (pageRanks45 1 ++ pageRanks45 2) := by
  have h3 : List.range 3 = [0, 1, 2] := by decide
  rw [h3]
  simp [List.flatMap_cons, List.flatMap_nil]

lemma not_chainSucc_flat : ∀ P, 3 ≤ P →
    ¬ List.Chain' (fun a b => b = a + 1) ((List.range P).flatMap pageRanks45) := by
  intro P hP hchain
  have hsplit : List.range P = List.range 3 ++ List.range' 3 (P - 3) := by
    rw [List.range_eq_range']
    conv_lhs => rw [show P = (P - 3) + 3 from by omega]
    rw [← List.range'_append 0 3 (P - 3) 1]
    norm_num
    exact List.range_eq_range' 3
  rw [hsplit, List.flatMap_append] at hchain
  have h3 := hchain.left_of_append
  rw [flat_three] at h3
  have hcross := (List.chain'_append.mp ((List.chain'_append.mp h3).2.1)).2.2
  have hl : (pageRanks45 1).getLast? = some 89 := by decide
  have hh : (pageRanks45 2).head? = some 91 := by decide
  have hbad := hcross 89 (by rw [hl]; rfl) 91 (by rw [hh]; rfl)
  omega

/-- Claim C1 (counterexample): three consecutive raw pages of 45 items each,
with the required one-item overlap, render to the rank sequence
`1..45, 46..89, 91..134`: rank 90 is skipped at the page 2 to page 3
boundary, so the de-duplicated rank sequence is not "increasing by exactly 1
with no gaps" as claimed. -/
theorem pagination_rank_cex :
    (List.range' 1 45).length = 45 ∧
    (List.range' 45 45).length = 45 ∧
    (List.range' 89 45).length = 45 ∧
    (List.range' 1 45).getLast? = (List.range' 45 45).head? ∧
    (List.range' 45 45).getLast? = (List.range' 89 45).head? ∧
    ¬ List.Chain' (fun a b => b = a + 1)
      (ranksConcat 3 (fun k =>
        if k = 1 then List.range' 1 45
        else if k = 2 then List.range' 45 45 else List.range' 89 45)) := by
  refine ⟨by decide, by decide, by decide, by decide, by decide, ?_⟩
  have hlen : ∀ k, 1 ≤ k → k ≤ 3 →
      ((fun k => if k = 1 then List.range' 1 45
        else if k = 2 then List.range' 45 45 else List.range' 89 45) k).length = 45 := by
    intro k h1 h2
    interval_cases k <;> decide
  rw [ranksConcat_eq 3
    (fun k => if k = 1 then List.range' 1 45
      else if k = 2 then List.range' 45 45 else List.range' 89 45) hlen]
  exact not_chainSucc_flat 3 (by norm_num)

/-- Claim C1 (amended): for consecutive 45-item raw pages `1..P`, the
de-duplicated rank sequence is strictly increasing; it increases by exactly 1
with no gaps or repeats precisely when `P ≤ 2` — from page 3 onward one rank
number is skipped at every page boundary, because pages after the first yield
44 entries while the start rank advances by 45. -/
theorem pagination_rank_chain :
    ∀ (P : ℕ) (pages : ℕ → List ℕ),
      (∀ k, 1 ≤ k → k ≤ P → (pages k).length = 45) →
      List.Chain' (· < ·) (ranksConcat P pages) ∧
      (List.Chain' (fun a b => b = a + 1) (ranksConcat P pages) ↔ P ≤ 2) := by
  intro P pages h
  rw [ranksConcat_eq P pages h]
  refine ⟨chainLt_flat P, ?_, ?_⟩
  · intro hchain
    by_contra hP
    exact not_chainSucc_flat P (by omega) hchain
  · intro hP
    interval_cases P
    · simp
    · have h1 : (List.range 1).flatMap pageRanks45 = List.range' 1 45 := by decide
      rw [h1]
      exact chain'_succ_range' 45 1
    · have h2 : (List.range 2).flatMap pageRanks45 = List.range' 1 89 := by decide
      rw [h2]
      exact chain'_succ_range' 89 1

theorem pagination_rank_chain_witness :
    List.Chain' (· < ·) (ranksConcat 2 (fun _ => List.range' 1 45)) ∧
    (List.Chain' (fun a b => b = a + 1) (ranksConcat 2 (fun _ => List.range' 1 45)) ↔
      2 ≤ 2) :=
  pagination_rank_chain 2 (fun _ => List.range' 1 45)
    (fun _ _ _ => by simp [List.length_range'])

end Donut
